import Mathlib

/-!
Verification development for the `typescript-notebook` repository: shallow
embeddings of the example components in `src/concepts/` and of the scheduler
behaviour its event-loop examples narrate, with theorems settling the
specification's claims about them.
-/

namespace Closure

/-- The public operations of the object returned by `createCounter`
(`src/concepts/closure/index.ts`, lines 20-36). -/
inductive CounterOp where
  | increment
  | decrement
  | getCount
deriving DecidableEq

/-- One method call on a counter: the captured `count` is the state; the
method returns a value and leaves a new state.  `increment` does `count++`
and returns `count`; `decrement` does `count--` and returns `count`;
`getCount` returns `count` unchanged. -/
def counterStep (count : Int) : CounterOp → Int × Int
  | .increment => (count + 1, count + 1)
  | .decrement => (count - 1, count - 1)
  | .getCount => (count, count)

/-- Run a sequence of method calls on a counter starting from state `count`,
returning the final state.  A fresh counter starts at `0` (`let count = 0`). -/
def runCounter (count : Int) : List CounterOp → Int
  | [] => count
  | op :: ops => runCounter (counterStep count op).2 ops

/-- The public operations of the `Calculator` module
(`src/concepts/closure/index.ts`, lines 185-209). -/
inductive CalcOp where
  | add (a b : Int)
  | subtract (a b : Int)
  | getLastResult
deriving DecidableEq

/-- One method call on `Calculator`: the captured `lastResult` is the state.
`add` sets `lastResult = a + b` and returns it; `subtract` sets
`lastResult = a - b` and returns it; `getLastResult` returns it unchanged. -/
def calcStep (lastResult : Int) : CalcOp → Int × Int
  | .add a b => (a + b, a + b)
  | .subtract a b => (a - b, a - b)
  | .getLastResult => (lastResult, lastResult)

/-- `expensiveCalculation` (`src/concepts/closure/index.ts`, lines 173-176):
the squaring function memoized in the demo. -/
def expensiveCalculation (n : Int) : Int := n * n

/-- Map lookup of the cache in `createMemoizedFunction`
(`src/concepts/closure/index.ts`, lines 155-171): `cache.has(arg)` /
`cache.get(arg)` on the JS `Map`, modelled as an association list. -/
def memoLookup {T R : Type} [DecidableEq T] : List (T × R) → T → Option R
  | [], _ => none
  | (k, v) :: rest, a => if k = a then some v else memoLookup rest a

/-- One call of the wrapper returned by `createMemoizedFunction fn`: on a
cache hit it returns the cached value and does not invoke `fn`; on a miss it
computes `fn arg`, stores it, and reports that `fn` was invoked.  The result
is `(returned value, new cache, whether fn was invoked)`. -/
def memoCall {T R : Type} [DecidableEq T] (fn : T → R) (cache : List (T × R))
    (a : T) : R × List (T × R) × Bool :=
  match memoLookup cache a with
  | some r => (r, cache, false)
  | none => (fn a, cache ++ [(a, fn a)], true)

/-- The pruning loop of the rate limiter
(`src/concepts/closure/index.ts`, lines 227-230):
`while (calls.length > 0 && calls[0] < now - windowMs) calls.shift()`. -/
def pruneCalls (windowMs now : Int) (calls : List Int) : List Int :=
  calls.dropWhile (fun t => decide (t < now - windowMs))

/-- One invocation of the wrapper built by
`createRateLimiter maxCalls windowMs` at time `now`
(`src/concepts/closure/index.ts`, lines 220-241): prune old timestamps, then
if fewer than `maxCalls` remain record `now` and invoke `fn` (flag `true`);
otherwise leave the list pruned and return `null` (flag `false`). -/
def rateStep (maxCalls : Nat) (windowMs : Int) (calls : List Int)
    (now : Int) : List Int × Bool :=
  let pruned := pruneCalls windowMs now calls
  if pruned.length < maxCalls then (pruned ++ [now], true) else (pruned, false)

/-- Run the rate-limited wrapper at each time in `nows` in order, starting
from the timestamp list `calls` (a fresh limiter starts from `[]`). -/
def runRate (maxCalls : Nat) (windowMs : Int) (calls : List Int) :
    List Int → List Int
  | [] => calls
  | now :: nows => runRate maxCalls windowMs (rateStep maxCalls windowMs calls now).1 nows

end Closure

namespace Curry

/-- `curry2` (`src/concepts/curry/README.md`, generic curry helper): turns a
two-argument function, modelled as a function on a pair, into a chain of
single-argument functions. -/
def curry2 {A B R : Type} (fn : A × B → R) : A → B → R :=
  fun a => fun b => fn (a, b)

/-- `curry3`: turns a three-argument function, modelled as a function on a
triple, into a chain of single-argument functions. -/
def curry3 {A B C R : Type} (fn : A × B × C → R) : A → B → C → R :=
  fun a => fun b => fun c => fn (a, b, c)

/-- `add(a, b, c) { return a + b + c }`, on the pair-encoded arguments. -/
def add (p : Int × Int × Int) : Int := p.1 + p.2.1 + p.2.2

/-- `addCurried`: the hand-curried version of `add` from the same example. -/
def addCurried (a : Int) : Int → Int → Int :=
  fun b => fun c => a + b + c

end Curry

namespace Neverthrow

/-- The third-party `Result` type demonstrated in `src/concepts/this/index.ts`:
a tagged two-variant value, success-with-value or failure-with-error. -/
inductive NResult (T E : Type) where
  | ok (value : T)
  | err (error : E)
deriving DecidableEq

/-- `Result.unwrapOr`: the success value, or the default on failure. -/
def NResult.unwrapOr {T E : Type} : NResult T E → T → T
  | .ok v, _ => v
  | .err _, d => d

/-- `divide` (`src/concepts/this/index.ts`, neverthrow example 1): returns
`err "Division by zero"` when `b === 0`, otherwise `ok (a / b)`.  JS numbers
are modelled as rationals. -/
def divide (a b : ℚ) : NResult ℚ String :=
  if b = 0 then .err "Division by zero" else .ok (a / b)

/-- `validatePassword` (`src/concepts/this/index.ts`, form-validation
example): `ok` when the password has at least 8 characters. -/
def validatePassword (password : String) : NResult String String :=
  if 8 ≤ password.length then .ok password
  else .err "Password must be at least 8 characters"

/-- The runtime errors the `fetchUser` error callback distinguishes
(`src/concepts/this/index.ts`, async example): a `TypeError` (network
failure), a thrown `{ status }` object, or anything else, carried with its
`String(error)` rendering. -/
inductive JsError where
  | typeError (message : String)
  | statusObj (status : Int)
  | other (rendering : String)
deriving DecidableEq

/-- The repository-defined `ApiError` union of the async example. -/
inductive ApiError where
  | network (message : String)
  | http (status : Int)
  | parse (message : String)
deriving DecidableEq

/-- The error callback passed to `ResultAsync.fromPromise` in `fetchUser`:
`TypeError` becomes a `network` error, an object with a `status` field
becomes an `http` error, and anything else becomes a `parse` error. -/
def classifyFetchError : JsError → ApiError
  | .typeError m => .network m
  | .statusObj s => .http s
  | .other r => .parse r

end Neverthrow

namespace EventLoop

/-- The operations the synchronous phase of the event-loop examples performs
(`src/unnamed/part_001`): print a line now, or defer a print to the timer
queue (`setTimeout(..., 0)`), the check queue (`setImmediate`), or the
microtask queue (`Promise.resolve().then` / `queueMicrotask`). -/
inductive EvtOp where
  | logLine (s : String)
  | deferTimer (s : String)
  | deferCheck (s : String)
  | deferMicro (s : String)
deriving DecidableEq

/-- Scheduler state: output printed so far and the three deferred-work
queues, each holding the lines its tasks will print. -/
structure LoopState where
  output : List String
  micro : List String
  timers : List String
  checks : List String
deriving DecidableEq

/-- Run the synchronous phase: each operation either prints or enqueues, in
program order. -/
def runSync (st : LoopState) : List EvtOp → LoopState
  | [] => st
  | .logLine s :: rest => runSync { st with output := st.output ++ [s] } rest
  | .deferTimer s :: rest => runSync { st with timers := st.timers ++ [s] } rest
  | .deferCheck s :: rest => runSync { st with checks := st.checks ++ [s] } rest
  | .deferMicro s :: rest => runSync { st with micro := st.micro ++ [s] } rest

/-- Modelled from the spec: the host runtime's deferred-work scheduler,
which the repository demonstrates but does not implement.  Per the spec's
glossary, microtasks drain fully before the next macrotask runs; among the
macrotask queues the timer queue runs before the check (`setImmediate`)
queue, as the example's commented output records.  Each task here only
prints its line. -/
def drainLoop : List String → List String → List String → List String
  | m :: ms, ts, cs => m :: drainLoop ms ts cs
  | [], t :: ts, cs => t :: drainLoop [] ts cs
  | [], [], c :: cs => c :: drainLoop [] [] cs
  | [], [], [] => []

/-- Run a whole script: synchronous phase from an empty state, then the
event loop drains the queues. -/
def runProgram (prog : List EvtOp) : List String :=
  let st := runSync ⟨[], [], [], []⟩ prog
  st.output ++ drainLoop st.micro st.timers st.checks

/-- Example 3, "Microtasks vs Macrotasks" (`src/unnamed/part_001`, lines
224-247), in source order. -/
def example3 : List EvtOp :=
  [ .logLine "Start",
    .deferTimer "setTimeout 1",
    .deferCheck "setImmediate",
    .deferMicro "Promise 1",
    .deferMicro "Promise 2",
    .deferMicro "queueMicrotask",
    .deferTimer "setTimeout 2",
    .logLine "End" ]

end EventLoop

namespace Stream

/-- The inner `write()` loop of `writeWithBackpressure`
(`src/concepts/stream/index.ts`, lines 186-212), started at index `i`.
`okF j` is the boolean `writable.write` returns for the chunk at index `j`
when that chunk is not the last (`false` means the internal buffer is
full).  The loop submits `data[i]`, advances `i`, and continues while the
last submission reported `true`; the final chunk is submitted with a
completion callback and without consulting the boolean.  Returns the chunks
submitted during this synchronous burst and the index reached. -/
def burst (okF : Nat → Bool) (data : List String) (i : Nat) :
    List String × Nat :=
  if h : i < data.length then
    let chunk := data.get ⟨i, h⟩
    if i + 1 = data.length then ([chunk], i + 1)
    else if okF i then
      let r := burst okF data (i + 1)
      (chunk :: r.1, r.2)
    else ([chunk], i + 1)
  else ([], i)
termination_by data.length - i
decreasing_by omega

/-- The outer structure of `writeWithBackpressure`: after a burst stops
with data remaining, the function re-runs `write()` on the writable's
`drain` event.  `fuel` bounds the number of bursts; `data.length` bursts
always suffice.  Returns every chunk submitted, across all bursts, in
submission order. -/
def writeAllFrom (okF : Nat → Bool) (data : List String) :
    Nat → Nat → List String
  | 0, _ => []
  | fuel + 1, i =>
    if i < data.length then
      (burst okF data i).1 ++ writeAllFrom okF data fuel (burst okF data i).2
    else []

/-- `writeWithBackpressure writable data`: all chunks submitted to the
writable over the whole run, when the writable answers `okF`. -/
def writeAll (okF : Nat → Bool) (data : List String) : List String :=
  writeAllFrom okF data data.length 0

end Stream

namespace CSV

/-- JS strings, modelled as character lists so that the `CSVParser`'s
splitting and trimming are structurally computable. -/
abbrev JsStr := List Char

/-- `String.prototype.split(sep)` for a one-character separator: splitting
an empty string yields one empty field, and every separator occurrence
starts a new field. -/
def splitOnChar (sep : Char) : JsStr → List JsStr
  | [] => [[]]
  | c :: cs =>
    match splitOnChar sep cs with
    | [] => [[]]
    | r :: rs => if c = sep then [] :: r :: rs else (c :: r) :: rs

/-- `String.prototype.trim()`: strip leading and trailing whitespace. -/
def trimChars (s : JsStr) : JsStr :=
  ((s.dropWhile Char.isWhitespace).reverse.dropWhile Char.isWhitespace).reverse

/-- A JS property assignment `obj[k] = v`: if the key is already present
its value is overwritten in place (the key keeps its original position);
otherwise the new property is appended. -/
def objSet : List (JsStr × Option JsStr) → JsStr → Option JsStr →
    List (JsStr × Option JsStr)
  | [], k, v => [(k, v)]
  | p :: rest, k, v =>
    if p.1 = k then (k, v) :: rest else p :: objSet rest k v

/-- A JS property read `obj[k]`: the value stored at the first (and, for
objects built with `objSet`, only) occurrence of the key. -/
def objGet : List (JsStr × Option JsStr) → JsStr → Option (Option JsStr)
  | [], _ => none
  | p :: rest, k => if p.1 = k then some p.2 else objGet rest k

/-- The `header.reduce` loop of `CSVParser._transform`: starting from the
accumulator `acc`, assign `acc[key.trim()] = values[i]?.trim()` for each
remaining header entry, `i` counting the header position. -/
def buildRecord (values : List JsStr) :
    List (JsStr × Option JsStr) → Nat → List JsStr →
      List (JsStr × Option JsStr)
  | acc, _, [] => acc
  | acc, i, key :: keys =>
    buildRecord values
      (objSet acc (trimChars key) ((values.get? i).map trimChars)) (i + 1) keys

/-- The record `CSVParser._transform` emits for one data line
(`src/concepts/stream/index.ts`, lines 300-328): split the line on commas,
then reduce over the header from the empty object, assigning each trimmed
header field the trimmed value at the same position — `none` when the
value is missing (`values[i]?.trim()`).  A trimmed header name that
repeats collapses to a single property holding the last position's
value, as JS object assignment does. -/
def csvRecord (header : List JsStr) (line : JsStr) :
    List (JsStr × Option JsStr) :=
  buildRecord (splitOnChar ',' line) [] 0 header

/-- The `lines.forEach` body of `_transform`: the first line seen while the
header is unset becomes the header (split on commas); each later line is
emitted as a record when its trimmed content is non-empty
(`line.trim()` truthy) and skipped otherwise.  Returns the new header state
and the records emitted, in order. -/
def csvStep : Option (List JsStr) → List JsStr →
    Option (List JsStr) × List (List (JsStr × Option JsStr))
  | header, [] => (header, [])
  | none, line :: rest => csvStep (some (splitOnChar ',' line)) rest
  | some h, line :: rest =>
    let r := csvStep (some h) rest
    if trimChars line = [] then r else (r.1, csvRecord h line :: r.2)

/-- One `write(chunk)` to the parser: the chunk is split on newlines and
the resulting lines are processed independently of any other chunk. -/
def csvWrite (st : Option (List JsStr)) (chunk : JsStr) :
    Option (List JsStr) × List (List (JsStr × Option JsStr)) :=
  csvStep st (splitOnChar '\n' chunk)

/-- Write a sequence of chunks to the parser, collecting every emitted
record in order. -/
def csvRun (st : Option (List JsStr)) :
    List JsStr → Option (List JsStr) × List (List (JsStr × Option JsStr))
  | [] => (st, [])
  | chunk :: rest =>
    let w := csvWrite st chunk
    let r := csvRun w.1 rest
    (r.1, w.2 ++ r.2)

end CSV

/-! ## Helper lemmas -/

theorem runCounter_closed (ops : List Closure.CounterOp) :
    ∀ c : Int, Closure.runCounter c ops =
      c + (ops.count .increment : Int) - (ops.count .decrement : Int) := by
  induction ops with
  | nil => intro c; simp [Closure.runCounter]
  | cons op ops ih =>
    intro c
    cases op <;>
      simp only [Closure.runCounter, Closure.counterStep, ih, List.count_cons] <;>
      simp <;> ring

theorem memoLookup_append {T R : Type} [DecidableEq T]
    (cache : List (T × R)) (a : T) (v : R)
    (h : Closure.memoLookup cache a = none) :
    Closure.memoLookup (cache ++ [(a, v)]) a = some v := by
  induction cache with
  | nil => simp [Closure.memoLookup]
  | cons p rest ih =>
    obtain ⟨k, w⟩ := p
    by_cases hk : k = a
    · simp [Closure.memoLookup, hk] at h
    · simp only [Closure.memoLookup, hk, if_neg hk, List.cons_append] at h ⊢
      exact ih h

theorem memoLookup_agrees {T R : Type} [DecidableEq T] (fn : T → R) :
    ∀ (cache : List (T × R)) (a : T) (r : R),
      (∀ p ∈ cache, p.2 = fn p.1) →
      Closure.memoLookup cache a = some r → r = fn a := by
  intro cache
  induction cache with
  | nil => intro a r _ hl; simp [Closure.memoLookup] at hl
  | cons p rest ih =>
    intro a r h hl
    obtain ⟨k, w⟩ := p
    by_cases hk : k = a
    · simp only [Closure.memoLookup, if_pos hk] at hl
      have hw := h (k, w) (by simp)
      subst hk
      cases hl
      simpa using hw
    · simp only [Closure.memoLookup, if_neg hk] at hl
      exact ih a r (fun q hq => h q (List.mem_cons_of_mem _ hq)) hl

/-! ## Claim theorems -/

/-- C8: for every sequence of operations on a counter created by
`createCounter` (which starts its captured `count` at 0), the final count
is the number of `increment` calls minus the number of `decrement` calls;
`increment` returns the count after adding one, `decrement` after
subtracting one, and `getCount` returns it unchanged.  (The captured
`count` is reachable only through these three methods by construction of
the closure: the returned object exposes nothing else.) -/
theorem counter_net_count :
    (∀ ops : List Closure.CounterOp,
      Closure.runCounter 0 ops =
        (ops.count .increment : Int) - (ops.count .decrement : Int)) ∧
    (∀ c : Int, Closure.counterStep c .increment = (c + 1, c + 1)) ∧
    (∀ c : Int, Closure.counterStep c .decrement = (c - 1, c - 1)) ∧
    (∀ c : Int, Closure.counterStep c .getCount = (c, c)) := by
  refine ⟨fun ops => ?_, fun c => rfl, fun c => rfl, fun c => rfl⟩
  simpa using runCounter_closed ops 0

/-- C1, counterexample: the counter returned by `createCounter` does own
state across invocations — two successive `increment()` calls on a fresh
counter return 1 and then 2, so the same operation called twice with the
same arguments does not return the same result both times. -/
theorem stateless_components_refuted :
    (Closure.counterStep 0 .increment).1 ≠
      (Closure.counterStep (Closure.counterStep 0 .increment).2 .increment).1 := by
  decide

/-- C1, amended: the closure examples do own state across invocations.
`createCounter`'s `increment` and `decrement` always change the captured
count, `Calculator`'s `add` and `subtract` overwrite `lastResult` with the
new result, and an admitted rate-limiter call appends a timestamp; only the
read-only accessors `getCount` and `getLastResult` leave the state
unchanged and repeat the same result. -/
theorem closure_components_own_state :
    (∀ c : Int, (Closure.counterStep c .increment).2 ≠ c) ∧
    (∀ c : Int, (Closure.counterStep c .decrement).2 ≠ c) ∧
    (∀ c : Int, Closure.counterStep c .getCount = (c, c)) ∧
    (∀ r a b : Int, (Closure.calcStep r (.add a b)).2 = a + b) ∧
    (∀ r a b : Int, (Closure.calcStep r (.subtract a b)).2 = a - b) ∧
    (∀ r : Int, Closure.calcStep r .getLastResult = (r, r)) ∧
    (∀ w now : Int, Closure.rateStep 1 w [] now = ([now], true)) := by
  refine ⟨fun c => ?_, fun c => ?_, fun c => rfl, fun r a b => rfl,
    fun r a b => rfl, fun r => rfl, fun w now => ?_⟩
  · simp [Closure.counterStep]
  · simp [Closure.counterStep]
  · simp [Closure.rateStep, Closure.pruneCalls]

/-- C3: currying preserves the original function's results — `curry2 fn`
and `curry3 fn` applied link by link agree with `fn` on the tupled
arguments, and `addCurried a b c` equals `add (a, b, c)` which equals
`a + b + c`. -/
theorem curry_preserves_results :
    (∀ (A B R : Type) (fn : A × B → R) (a : A) (b : B),
      Curry.curry2 fn a b = fn (a, b)) ∧
    (∀ (A B C R : Type) (fn : A × B × C → R) (a : A) (b : B) (c : C),
      Curry.curry3 fn a b c = fn (a, b, c)) ∧
    (∀ a b c : Int,
      Curry.addCurried a b c = Curry.add (a, b, c) ∧
        Curry.add (a, b, c) = a + b + c) :=
  ⟨fun _ _ _ _ _ _ => rfl, fun _ _ _ _ _ _ _ _ => rfl,
    fun _ _ _ => ⟨rfl, rfl⟩⟩

/-- C7: memoization is transparent.  The first-ever call with `a` computes
`fn a`, caches it, and reports that `fn` was invoked; a call repeated
immediately with the same argument returns the same value, leaves the
cache unchanged, and does not invoke `fn`; and from any cache every entry
of which agrees with `fn`, the wrapper's return value is exactly `fn a` —
for pure `fn` the wrapper is extensionally equal to `fn`. -/
theorem memoization_transparent :
    (∀ (T R : Type) [DecidableEq T] (fn : T → R) (a : T),
      Closure.memoCall fn [] a = (fn a, [(a, fn a)], true)) ∧
    (∀ (T R : Type) [DecidableEq T] (fn : T → R) (cache : List (T × R)) (a : T),
      Closure.memoCall fn (Closure.memoCall fn cache a).2.1 a =
        ((Closure.memoCall fn cache a).1, (Closure.memoCall fn cache a).2.1, false)) ∧
    (∀ (T R : Type) [DecidableEq T] (fn : T → R) (cache : List (T × R)) (a : T),
      (∀ p ∈ cache, p.2 = fn p.1) →
        (Closure.memoCall fn cache a).1 = fn a) := by
  refine ⟨fun T R _ fn a => ?_, fun T R _ fn cache a => ?_, fun T R _ fn cache a h => ?_⟩
  · simp [Closure.memoCall, Closure.memoLookup]
  · rcases hl : Closure.memoLookup cache a with _ | r
    · simp only [Closure.memoCall, hl]
      simp [memoLookup_append cache a (fn a) hl]
    · simp [Closure.memoCall, hl]
  · rcases hl : Closure.memoLookup cache a with _ | r
    · simp [Closure.memoCall, hl]
    · have hr := memoLookup_agrees fn cache a r h hl
      simp [Closure.memoCall, hl, hr]

/-- Witness for C7: memoizing the demo's `expensiveCalculation` and calling
the wrapper on 5 with a fresh cache returns 25. -/
theorem memoization_transparent_witness :
    (Closure.memoCall Closure.expensiveCalculation [] 5).1 = 25 := by
  have h := memoization_transparent.2.2 Int Int Closure.expensiveCalculation [] 5
    (by simp)
  rw [h]
  norm_num [Closure.expensiveCalculation]

theorem drainLoop_micro (ts cs : List String) :
    ∀ ms : List String,
      EventLoop.drainLoop ms ts cs = ms ++ EventLoop.drainLoop [] ts cs := by
  intro ms
  induction ms with
  | nil => simp
  | cons m ms ih => simp [EventLoop.drainLoop, ih]

/-- C2: in the scheduler model the event-loop example demonstrates, from
every state the next task executed is a microtask whenever the microtask
queue is non-empty — the whole microtask queue drains before any macrotask
runs — and example 3 prints `Start`, `End`, `Promise 1`, `Promise 2`,
`queueMicrotask`, `setTimeout 1`, `setTimeout 2`, `setImmediate` in exactly
that order. -/
theorem event_loop_micro_before_macro :
    (∀ ms ts cs : List String,
      EventLoop.drainLoop ms ts cs = ms ++ EventLoop.drainLoop [] ts cs) ∧
    EventLoop.runProgram EventLoop.example3 =
      ["Start", "End", "Promise 1", "Promise 2", "queueMicrotask",
        "setTimeout 1", "setTimeout 2", "setImmediate"] := by
  refine ⟨fun ms ts cs => drainLoop_micro ts cs ms, ?_⟩
  simp [EventLoop.runProgram, EventLoop.runSync, EventLoop.example3,
    EventLoop.drainLoop]

/-- C4: `divide a b` returns `err "Division by zero"` exactly when `b = 0`
and `ok (a / b)` otherwise (it is a total function — no exception is
thrown), and `divide(10, 0).unwrapOr(0)` evaluates to 0. -/
theorem divide_result_spec :
    (∀ a b : ℚ,
      (Neverthrow.divide a b = .err "Division by zero" ↔ b = 0) ∧
      (b ≠ 0 → Neverthrow.divide a b = .ok (a / b))) ∧
    (Neverthrow.divide 10 0).unwrapOr 0 = 0 := by
  refine ⟨fun a b => ⟨?_, fun hb => ?_⟩, ?_⟩
  · by_cases hb : b = 0 <;> simp [Neverthrow.divide, hb]
  · simp [Neverthrow.divide, hb]
  · norm_num [Neverthrow.divide, Neverthrow.NResult.unwrapOr]

/-- Witness for C4: `divide 10 2` succeeds with value 5. -/
theorem divide_result_spec_witness :
    Neverthrow.divide 10 2 = .ok 5 := by
  have h := (divide_result_spec.1 10 2).2 (by norm_num)
  norm_num at h
  exact h

/-- C6, counterexample: the repository does author an error classification.
The error callback of `fetchUser` maps each runtime failure to one of the
repository-defined `ApiError` categories — a `TypeError` to `network`, a
thrown status object to `http`, anything else to `parse` — refuting the
claim that no repository-authored code classifies failures into
repository-defined categories. -/
theorem no_error_taxonomy_refuted :
    Neverthrow.classifyFetchError (.typeError "fetch failed") =
        .network "fetch failed" ∧
    Neverthrow.classifyFetchError (.statusObj 404) = .http 404 ∧
    Neverthrow.classifyFetchError (.other "oops") = .parse "oops" :=
  ⟨rfl, rfl, rfl⟩

/-- C6, amended: the only original error taxonomy is the `ApiError` union
in the `fetchUser` demo, whose error callback classifies every runtime
failure into exactly one of the three repository-defined categories
(`network`, `http`, `parse`); the remaining examples surface plain string
errors of the third-party `Result` type — e.g. `validatePassword` fails
with the fixed message exactly when the password is shorter than 8
characters. -/
theorem api_error_taxonomy_total :
    (∀ e : Neverthrow.JsError,
      (∃ m, Neverthrow.classifyFetchError e = .network m) ∨
      (∃ s, Neverthrow.classifyFetchError e = .http s) ∨
      (∃ m, Neverthrow.classifyFetchError e = .parse m)) ∧
    (∀ p : String,
      Neverthrow.validatePassword p =
          .err "Password must be at least 8 characters" ↔ p.length < 8) := by
  constructor
  · intro e
    rcases e with m | s | r
    · exact Or.inl ⟨m, rfl⟩
    · exact Or.inr (Or.inl ⟨s, rfl⟩)
    · exact Or.inr (Or.inr ⟨r, rfl⟩)
  · intro p
    by_cases h : 8 ≤ p.length
    · simp [Neverthrow.validatePassword, h]
    · simp [Neverthrow.validatePassword, h]
      omega

theorem dropWhile_lt_length_sorted (k : Int) :
    ∀ l : List Int, l.Sorted (· ≤ ·) →
      (l.dropWhile (fun t => decide (t < k))).length =
        l.countP (fun t => decide (k ≤ t)) := by
  intro l
  induction l with
  | nil => intro _; simp
  | cons a l ih =>
    intro hs
    rw [List.sorted_cons] at hs
    by_cases h : a < k
    · simp only [List.dropWhile_cons, List.countP_cons, decide_eq_true h,
        if_pos rfl, decide_eq_false (not_le.2 h)]
      simpa using ih hs.2
    · have hk : k ≤ a := not_lt.1 h
      have hstop : ((a :: l).dropWhile fun t => decide (t < k)) = a :: l := by
        simp [List.dropWhile_cons, h]
      rw [hstop, Eq.comm, List.countP_eq_length]
      intro t ht
      rcases List.mem_cons.1 ht with rfl | ht
      · simpa using hk
      · simpa using le_trans hk (hs.1 t ht)

theorem rateStep_length_le (maxCalls : Nat) (windowMs : Int)
    (calls : List Int) (now : Int) (h : calls.length ≤ maxCalls) :
    (Closure.rateStep maxCalls windowMs calls now).1.length ≤ maxCalls := by
  unfold Closure.rateStep
  by_cases hlt :
      (Closure.pruneCalls windowMs now calls).length < maxCalls
  · simp only [hlt, if_pos]
    simp
    omega
  · simp only [hlt, if_neg, if_false]
    calc (Closure.pruneCalls windowMs now calls).length
        ≤ calls.length := (List.dropWhile_suffix _).length_le
      _ ≤ maxCalls := h

theorem runRate_length_le (maxCalls : Nat) (windowMs : Int) :
    ∀ (nows calls : List Int), calls.length ≤ maxCalls →
      (Closure.runRate maxCalls windowMs calls nows).length ≤ maxCalls := by
  intro nows
  induction nows with
  | nil => intro calls h; simpa [Closure.runRate] using h
  | cons now nows ih =>
    intro calls h
    exact ih _ (rateStep_length_le maxCalls windowMs calls now h)

/-- C9: for the rate-limited wrapper, when the recorded timestamps are in
nondecreasing order (as they are for any monotone clock), an invocation at
time `now` admits the call — invoking `fn` and recording `now` — exactly
when fewer than `maxCalls` recorded timestamps lie within the last
`windowMs` milliseconds; when it rejects, it only prunes and records
nothing; and starting from a fresh limiter the recorded-timestamp list
never holds more than `maxCalls` entries. -/
theorem rate_limiter_window_spec :
    (∀ (maxCalls : Nat) (windowMs : Int) (calls : List Int) (now : Int),
      calls.Sorted (· ≤ ·) →
        ((Closure.rateStep maxCalls windowMs calls now).2 = true ↔
          calls.countP (fun t => decide (now - windowMs ≤ t)) < maxCalls)) ∧
    (∀ (maxCalls : Nat) (windowMs : Int) (calls : List Int) (now : Int),
      (Closure.rateStep maxCalls windowMs calls now).2 = true →
        (Closure.rateStep maxCalls windowMs calls now).1 =
          Closure.pruneCalls windowMs now calls ++ [now]) ∧
    (∀ (maxCalls : Nat) (windowMs : Int) (calls : List Int) (now : Int),
      (Closure.rateStep maxCalls windowMs calls now).2 = false →
        (Closure.rateStep maxCalls windowMs calls now).1 =
          Closure.pruneCalls windowMs now calls) ∧
    (∀ (maxCalls : Nat) (windowMs : Int) (nows : List Int),
      (Closure.runRate maxCalls windowMs [] nows).length ≤ maxCalls) := by
  refine ⟨fun maxCalls windowMs calls now hs => ?_,
    fun maxCalls windowMs calls now h => ?_,
    fun maxCalls windowMs calls now h => ?_,
    fun maxCalls windowMs nows => runRate_length_le maxCalls windowMs nows [] (by simp)⟩
  · rw [← dropWhile_lt_length_sorted (now - windowMs) calls hs]
    by_cases hlt :
        (calls.dropWhile fun t => decide (t < now - windowMs)).length < maxCalls <;>
      simp [Closure.rateStep, Closure.pruneCalls, hlt]
  · unfold Closure.rateStep at h ⊢
    by_cases hlt :
        (Closure.pruneCalls windowMs now calls).length < maxCalls
    · simp [hlt]
    · simp [hlt] at h
  · unfold Closure.rateStep at h ⊢
    by_cases hlt :
        (Closure.pruneCalls windowMs now calls).length < maxCalls
    · simp [hlt] at h
    · simp [hlt]

/-- Witness for C9: a fresh limiter allowing 3 calls per 1000 ms admits an
invocation at time 0. -/
theorem rate_limiter_window_spec_witness :
    (Closure.rateStep 3 1000 [] 0).2 = true :=
  (rate_limiter_window_spec.1 3 1000 [] 0 (by simp)).mpr (by decide)

theorem burst_spec (okF : Nat → Bool) (data : List String) :
    ∀ k i, data.length - i ≤ k → i < data.length →
      i < (Stream.burst okF data i).2 ∧
      (Stream.burst okF data i).2 ≤ data.length ∧
      (Stream.burst okF data i).1 =
        (data.drop i).take ((Stream.burst okF data i).2 - i) := by
  intro k
  induction k with
  | zero => intro i hk hi; omega
  | succ k ih =>
    intro i hk hi
    have hdrop : data.drop i = data.get ⟨i, hi⟩ :: data.drop (i + 1) :=
      List.drop_eq_getElem_cons hi
    rw [Stream.burst]
    by_cases hlast : i + 1 = data.length
    · simp only [dif_pos hi, if_pos hlast]
      refine ⟨by omega, by omega, ?_⟩
      have h1 : i + 1 - i = 1 := by omega
      rw [hdrop, h1]
      rfl
    · by_cases hok : okF i
      · have hi1 : i + 1 < data.length := by omega
        obtain ⟨h1, h2, h3⟩ := ih (i + 1) (by omega) hi1
        simp only [dif_pos hi, if_neg hlast, if_pos hok]
        refine ⟨by omega, h2, ?_⟩
        rw [hdrop, h3]
        have htake : (Stream.burst okF data (i + 1)).2 - i =
            ((Stream.burst okF data (i + 1)).2 - (i + 1)) + 1 := by omega
        rw [htake, List.take_succ_cons]
      · simp only [dif_pos hi, if_neg hlast, if_neg hok]
        refine ⟨by omega, by omega, ?_⟩
        have h1 : i + 1 - i = 1 := by omega
        rw [hdrop, h1]
        rfl

theorem writeAllFrom_drop (okF : Nat → Bool) (data : List String) :
    ∀ fuel i, data.length - i ≤ fuel →
      Stream.writeAllFrom okF data fuel i = data.drop i := by
  intro fuel
  induction fuel with
  | zero =>
    intro i h
    have hle : data.length ≤ i := by omega
    simp [Stream.writeAllFrom, List.drop_eq_nil_of_le hle]
  | succ fuel ih =>
    intro i h
    by_cases hi : i < data.length
    · obtain ⟨h1, h2, h3⟩ :=
        burst_spec okF data (data.length - i) i (le_refl _) hi
      rw [Stream.writeAllFrom, if_pos hi, h3,
        ih (Stream.burst okF data i).2 (by omega)]
      have hdj : data.drop (Stream.burst okF data i).2 =
          (data.drop i).drop ((Stream.burst okF data i).2 - i) := by
        rw [List.drop_drop]
        congr 1
        omega
      rw [hdj, List.take_append_drop]
    · rw [Stream.writeAllFrom, if_neg hi,
        List.drop_eq_nil_of_le (by omega)]

/-- C5, counterexample: the write scheduling of `writeWithBackpressure`
does depend on the boolean returned by `writable.write`.  On the input
`["a", "b", "c"]`, the synchronous burst submits all three chunks when the
writable always reports room, but only `"a"` when it reports a full buffer,
deferring the rest to the `drain` event. -/
theorem no_backpressure_logic_refuted :
    (Stream.burst (fun _ => false) ["a", "b", "c"] 0).1 ≠
      (Stream.burst (fun _ => true) ["a", "b", "c"] 0).1 := by
  simp [Stream.burst]

/-- C5, amended: `writeWithBackpressure` does author backpressure logic —
which chunks are submitted in a synchronous burst depends on the boolean
`writable.write` returns — but across all `drain` resumptions it submits
exactly the input chunks, in order, whatever pattern of buffer-full
signals the writable reports. -/
theorem backpressure_submits_all_chunks :
    (∀ (okF : Nat → Bool) (data : List String),
      Stream.writeAll okF data = data) ∧
    (Stream.burst (fun _ => false) ["a", "b", "c"] 0).1 ≠
      (Stream.burst (fun _ => true) ["a", "b", "c"] 0).1 := by
  constructor
  · intro okF data
    simpa using writeAllFrom_drop okF data data.length 0 (by omega)
  · simp [Stream.burst]

theorem objGet_objSet_self (k : CSV.JsStr) (v : Option CSV.JsStr) :
    ∀ obj, CSV.objGet (CSV.objSet obj k v) k = some v := by
  intro obj
  induction obj with
  | nil => simp [CSV.objSet, CSV.objGet]
  | cons p rest ih =>
    by_cases hp : p.1 = k
    · simp [CSV.objSet, CSV.objGet, hp]
    · simp [CSV.objSet, CSV.objGet, hp, ih]

theorem objGet_objSet_other (k q : CSV.JsStr) (v : Option CSV.JsStr)
    (hk : q ≠ k) :
    ∀ obj, CSV.objGet (CSV.objSet obj k v) q = CSV.objGet obj q := by
  intro obj
  induction obj with
  | nil => simp [CSV.objSet, CSV.objGet, Ne.symm hk]
  | cons p rest ih =>
    by_cases hp : p.1 = k
    · simp [CSV.objSet, CSV.objGet, hp, Ne.symm hk]
    · by_cases hq : p.1 = q
      · simp [CSV.objSet, CSV.objGet, hp, hq, hk]
      · simp [CSV.objSet, CSV.objGet, hp, hq, ih]

theorem buildRecord_absent (values : List CSV.JsStr) (k : CSV.JsStr) :
    ∀ (keys : List CSV.JsStr) (i : Nat)
      (acc : List (CSV.JsStr × Option CSV.JsStr)),
      (∀ key ∈ keys, CSV.trimChars key ≠ k) →
      CSV.objGet (CSV.buildRecord values acc i keys) k = CSV.objGet acc k := by
  intro keys
  induction keys with
  | nil => intro i acc _; simp [CSV.buildRecord]
  | cons key keys ih =>
    intro i acc h
    simp only [CSV.buildRecord]
    rw [ih (i + 1) _ (fun q hq => h q (List.mem_cons_of_mem _ hq))]
    exact objGet_objSet_other _ _ _ (Ne.symm (h key (by simp))) acc

theorem buildRecord_lastKey (values : List CSV.JsStr) :
    ∀ (keys : List CSV.JsStr) (j : Nat) (hj : j < keys.length),
      (∀ (m : Nat) (hm : m < keys.length), j < m →
        CSV.trimChars (keys.get ⟨m, hm⟩) ≠ CSV.trimChars (keys.get ⟨j, hj⟩)) →
      ∀ (i : Nat) (acc : List (CSV.JsStr × Option CSV.JsStr)),
        CSV.objGet (CSV.buildRecord values acc i keys)
            (CSV.trimChars (keys.get ⟨j, hj⟩)) =
          some ((values.get? (i + j)).map CSV.trimChars) := by
  intro keys
  induction keys with
  | nil => intro j hj; exact absurd hj (by simp)
  | cons key keys ih =>
    intro j hj hlast i acc
    cases j with
    | zero =>
      simp only [CSV.buildRecord]
      have hnone : ∀ q ∈ keys,
          CSV.trimChars q ≠ CSV.trimChars ((key :: keys).get ⟨0, hj⟩) := by
        intro q hq
        obtain ⟨⟨m, hm⟩, rfl⟩ := List.mem_iff_get.1 hq
        exact hlast (m + 1) (by simpa using Nat.succ_lt_succ hm) (Nat.succ_pos m)
      rw [buildRecord_absent values _ keys (i + 1) _ hnone]
      simpa using objGet_objSet_self (CSV.trimChars key) _ acc
    | succ j =>
      have hj2 : j < keys.length := Nat.lt_of_succ_lt_succ hj
      have hlast2 : ∀ (m : Nat) (hm : m < keys.length), j < m →
          CSV.trimChars (keys.get ⟨m, hm⟩) ≠ CSV.trimChars (keys.get ⟨j, hj2⟩) := by
        intro m hm hjm
        have := hlast (m + 1) (by simpa using Nat.succ_lt_succ hm)
          (Nat.succ_lt_succ hjm)
        simpa using this
      have hrec := ih j hj2 hlast2 (i + 1)
        (CSV.objSet acc (CSV.trimChars key) ((values.get? i).map CSV.trimChars))
      have harith : i + 1 + j = i + (j + 1) := by omega
      rw [harith] at hrec
      simpa only [CSV.buildRecord] using hrec

/-- C10, counterexample: with a fresh parser, the chunk `"h\n \nx\n"`
splits into the lines `"h"` (taken as header), `" "`, `"x"`, and `""`; the
line `" "` is non-empty, yet only one record — the one for `"x"` — is
emitted, because the code skips any line whose `trim()` is empty. -/
theorem csv_nonempty_line_refuted :
    CSV.splitOnChar '\n' ['h', '\n', ' ', '\n', 'x', '\n'] =
      [['h'], [' '], ['x'], []] ∧
    ([' '] : CSV.JsStr) ≠ [] ∧
    (CSV.csvWrite none ['h', '\n', ' ', '\n', 'x', '\n']).2 =
      [CSV.csvRecord [['h']] ['x']] := by
  decide

theorem csvStep_emits (h : List CSV.JsStr) :
    ∀ lines : List CSV.JsStr,
      CSV.csvStep (some h) lines =
        (some h,
          (lines.filter fun l => !(CSV.trimChars l).isEmpty).map
            (CSV.csvRecord h)) := by
  intro lines
  induction lines with
  | nil => simp [CSV.csvStep]
  | cons line rest ih =>
    by_cases hl : CSV.trimChars line = []
    · simp [CSV.csvStep, ih, List.filter_cons, hl]
    · simp [CSV.csvStep, ih, List.filter_cons, hl,
        List.isEmpty_iff]

/-- C10, amended: for every sequence of chunks written to a fresh
`CSVParser`, the first line of the first chunk becomes the header; every
later line whose trimmed content is non-empty (whitespace-only lines are
skipped) yields exactly one record — the JS object built by assigning, in
header order, each trimmed header field the trimmed value at the same
comma-separated position, `none` when the value is missing, so the field
at any position that is the last occurrence of its trimmed name holds that
position's value and a repeated header name collapses to a single property
holding the last position's value; and a logical line split across two
written chunks is processed as two separate lines, not rejoined. -/
theorem csv_parser_spec :
    (∀ (line : CSV.JsStr) (rest : List CSV.JsStr),
      CSV.csvStep none (line :: rest) =
        CSV.csvStep (some (CSV.splitOnChar ',' line)) rest) ∧
    (∀ (h : List CSV.JsStr) (lines : List CSV.JsStr),
      CSV.csvStep (some h) lines =
        (some h,
          (lines.filter fun l => !(CSV.trimChars l).isEmpty).map
            (CSV.csvRecord h))) ∧
    (∀ (h : List CSV.JsStr) (line : CSV.JsStr) (j : Fin h.length),
      (∀ j' : Fin h.length, j.val < j'.val →
        CSV.trimChars (h.get j') ≠ CSV.trimChars (h.get j)) →
      CSV.objGet (CSV.csvRecord h line) (CSV.trimChars (h.get j)) =
        some (((CSV.splitOnChar ',' line).get? j.val).map CSV.trimChars)) ∧
    CSV.csvRecord [['a'], ['a']] ['1', ',', '2'] = [(['a'], some ['2'])] ∧
    (CSV.csvRun (some [['n']]) [['A', 'l', 'i'], ['c', 'e']]).2 =
      [CSV.csvRecord [['n']] ['A', 'l', 'i'],
        CSV.csvRecord [['n']] ['c', 'e']] := by
  refine ⟨fun line rest => rfl, csvStep_emits,
    fun h line j hlast => ?_, by decide, by decide⟩
  have hmain := buildRecord_lastKey (CSV.splitOnChar ',' line) h j.val j.2
    (fun m hm hlt => hlast ⟨m, hm⟩ hlt) 0 []
  simpa [CSV.csvRecord] using hmain

/-- Witness for C10: looking up the single header field of a one-column
record returns the row's trimmed value. -/
theorem csv_parser_spec_witness :
    CSV.objGet (CSV.csvRecord [['n']] ['5']) ['n'] = some (some ['5']) := by
  have h := csv_parser_spec.2.2.1 [['n']] ['5'] ⟨0, by decide⟩
    (fun j' hlt => False.elim (by have h2 : j'.val < 1 := j'.2; omega))
  exact h
